import Mathlib

/-!
Shallow embedding of the sliding-tile puzzle solver (src/main.rs) and proofs
of the specification's claims about it.

The Rust program is embedded as pure Lean functions: in-place mutation
becomes explicit state passing (`slide` returns the success flag together
with the updated `Puzzle`), the `u64`/`usize` machine integers become `Nat`
(no arithmetic in the program can overflow: fingerprints are nine base-16
digits of `u8` values, costs are small sums), the `BinaryHeap` becomes a
list whose pop extracts the greatest element under the program's `Ord`,
the `HashMap` becomes an association list with latest-insert-wins lookup,
and the random number generator consumed by `scramble` becomes an opaque
stream `Nat -> Nat` of draws (the Rust `StdRng` is external crate code,
fully determined by the seed).  Loops whose termination is not structural
(`scramble`'s while, the search loop, path reconstruction) take explicit
fuel.
-/

namespace SlidingTiles

inductive Tile where
  | Empty : Tile
  | Number : Nat → Tile
deriving DecidableEq, Repr

inductive Direction where
  | Up : Direction
  | Down : Direction
  | Left : Direction
  | Right : Direction
deriving DecidableEq, Repr

/-- The constant array ALL_DIRS, in the program's order. -/
def ALL_DIRS : List Direction := [Direction.Left, Direction.Right, Direction.Up, Direction.Down]

def invert (d : Direction) : Direction :=
  match d with
  | Direction.Down => Direction.Up
  | Direction.Left => Direction.Right
  | Direction.Right => Direction.Left
  | Direction.Up => Direction.Down

def SIZE : Nat := 3

/-- LIMIT = SIZE - 1. -/
def LIMIT : Nat := SIZE - 1

/-- MAX = SIZE * SIZE. -/
def MAX : Nat := SIZE * SIZE

/-- Rust `usize::abs_diff`. -/
def abs_diff (a b : Nat) : Nat := (a - b) + (b - a)

def solved_pos (n : Nat) : Nat × Nat := ((n - 1) / SIZE, (n - 1) % SIZE)

/-- The Board: a grid of tiles (total function on coordinates; the program
only ever reads and writes coordinates below SIZE), the blank's position and
the cached heuristic cost. -/
structure Puzzle where
  grid : Nat × Nat → Tile
  empty_pos : Nat × Nat
  cost : Nat

/-- Point update of a grid, modelling `self.grid[r][c] = t`. -/
def setCell (g : Nat × Nat → Tile) (pt : Nat × Nat) (t : Tile) : Nat × Nat → Tile :=
  fun q => if q = pt then t else g q

/-- `Puzzle::new()`: the solved grid (cell (row, col) holds row*SIZE+col+1,
last cell Empty), blank at (LIMIT, LIMIT), cost 0. -/
def Puzzle.new : Puzzle :=
  let g0 : Nat × Nat → Tile := fun _ => Tile.Empty
  let g1 := (List.range' 1 (MAX - 1)).foldl
    (fun g i => setCell g (solved_pos i) (Tile.Number i)) g0
  let g2 := setCell g1 (LIMIT, LIMIT) Tile.Empty
  { grid := g2, empty_pos := (LIMIT, LIMIT), cost := 0 }

/-- The numeric value a cell contributes to the fingerprint: 0 for Empty. -/
def tval (t : Tile) : Nat :=
  match t with
  | Tile.Number n => n
  | Tile.Empty => 0

/-- `Puzzle::uniq()`: pack the cell values base 16 in row-major order. -/
def Puzzle.uniq (p : Puzzle) : Nat :=
  (List.range SIZE).foldl
    (fun res row =>
      (List.range SIZE).foldl (fun res2 col => res2 * 16 + tval (p.grid (row, col))) res)
    0

/-- The goal position of a tile: `solved_pos` for numbers, (LIMIT, LIMIT)
for the blank. -/
def goalOf (t : Tile) : Nat × Nat :=
  match t with
  | Tile.Number n => solved_pos n
  | Tile.Empty => (LIMIT, LIMIT)

/-- One cell's contribution to `compute_cost`:
`row.abs_diff(grow) + gcol.abs_diff(col)`. -/
def cellCost (t : Tile) (row col : Nat) : Nat :=
  abs_diff row (goalOf t).1 + abs_diff (goalOf t).2 col

/-- `Puzzle::compute_cost()`: the sum of Manhattan distances of every cell
to its goal. -/
def Puzzle.compute_cost (p : Puzzle) : Nat :=
  Finset.sum (Finset.range SIZE) fun row =>
    Finset.sum (Finset.range SIZE) fun col => cellCost (p.grid (row, col)) row col

/-- `Puzzle::is_solved()`. -/
def Puzzle.is_solved (p : Puzzle) : Bool := p.cost == 0

/-- `Puzzle::swap`: exchange two cells, then recompute the cached cost. -/
def Puzzle.swap (p : Puzzle) (pt_a pt_b : Nat × Nat) : Puzzle :=
  let g1 := setCell p.grid pt_a (p.grid pt_b)
  let g2 := setCell g1 pt_b (p.grid pt_a)
  let p1 : Puzzle := { p with grid := g2 }
  { p1 with cost := p1.compute_cost }

/-- `Puzzle::swap_with_empty`: swap `pt` with the blank, move the blank to
`pt`, return true. -/
def Puzzle.swap_with_empty (p : Puzzle) (pt : Nat × Nat) : Bool × Puzzle :=
  (true, { p.swap pt p.empty_pos with empty_pos := pt })

/-- `Puzzle::slide`: attempt to move the blank one step; the Rust
short-circuit `bound && swap_with_empty(..)` becomes an if. -/
def Puzzle.slide (p : Puzzle) (direction : Direction) : Bool × Puzzle :=
  match direction with
  | Direction.Up =>
      if p.empty_pos.1 > 0 then p.swap_with_empty (p.empty_pos.1 - 1, p.empty_pos.2)
      else (false, p)
  | Direction.Down =>
      if p.empty_pos.1 + 1 < SIZE then p.swap_with_empty (p.empty_pos.1 + 1, p.empty_pos.2)
      else (false, p)
  | Direction.Left =>
      if p.empty_pos.2 > 0 then p.swap_with_empty (p.empty_pos.1, p.empty_pos.2 - 1)
      else (false, p)
  | Direction.Right =>
      if p.empty_pos.2 + 1 < SIZE then p.swap_with_empty (p.empty_pos.1, p.empty_pos.2 + 1)
      else (false, p)

/-- `ALL_DIRS[di]` for an index already reduced mod 4. -/
def dirAt (i : Nat) : Direction :=
  match i with
  | 0 => Direction.Left
  | 1 => Direction.Right
  | 2 => Direction.Up
  | _ => Direction.Down

/-- The body of `Puzzle::scramble`'s while loop, with the RNG draws
abstracted as the stream `rand` (draw `idx` is `rand idx % 4`) and explicit
fuel bounding the number of iterations. -/
def scrambleLoop (rand : Nat → Nat) (amount : Nat) :
    Nat → Nat → Option Direction → Nat → Puzzle → Puzzle
  | 0, _, _, _, p => p
  | fuel + 1, idx, previous, moves, p =>
      if moves < amount then
        if some (dirAt (rand idx % 4)) ≠ previous then
          if (p.slide (dirAt (rand idx % 4))).1 then
            scrambleLoop rand amount fuel (idx + 1) (some (dirAt (rand idx % 4)))
              (moves + 1) (p.slide (dirAt (rand idx % 4))).2
          else scrambleLoop rand amount fuel (idx + 1) previous moves
            (p.slide (dirAt (rand idx % 4))).2
        else scrambleLoop rand amount fuel (idx + 1) previous moves p
      else p

/-- `Puzzle::scramble(amount, seed)`: the seed determines the draw stream. -/
def Puzzle.scramble (p : Puzzle) (amount : Nat) (rand : Nat → Nat) (fuel : Nat) : Puzzle :=
  scrambleLoop rand amount fuel 0 none 0 p

/-- The `Ord for Puzzle` implementation: cost comparison inverted, ties
broken by `uniq`. -/
def pcmp (a b : Puzzle) : Ordering :=
  (compare b.cost a.cost).then (compare a.uniq b.uniq)

/-- `BinaryHeap::push`: the heap as the multiset of its elements. -/
def heapPush (p : Puzzle) (h : List Puzzle) : List Puzzle := p :: h

/-- `BinaryHeap::pop`: extract a greatest element under the `Ord` (the
leftmost one; in every state the program builds, elements have pairwise
distinct fingerprints, so the greatest element is unique). -/
def heapPop : List Puzzle → Option (Puzzle × List Puzzle)
  | [] => none
  | x :: xs =>
      match heapPop xs with
      | none => some (x, [])
      | some (m, rest) =>
          if pcmp x m = Ordering.lt then some (m, x :: rest) else some (x, xs)

/-- The visited table's values. -/
structure SolutionLink where
  depth : Nat
  step : Option (Nat × Direction)

/-- The visited `HashMap` as an association list; insert prepends, lookup
takes the most recent binding. -/
abbrev Visited := List (Nat × SolutionLink)

def vfind (m : Visited) (k : Nat) : Option SolutionLink :=
  (List.find? (fun e => e.1 == k) m).map (fun e => e.2)

def vinsert (m : Visited) (k : Nat) (v : SolutionLink) : Visited :=
  (k, v) :: m

/-- `collect`: walk the predecessor links back from `start`, accumulating
the `(predecessor, direction)` steps; fuel bounds the loop (the caller
passes one more than the table's size, which every terminating Rust run
stays within, since the walk revisits no key before terminating). -/
def collectLoop (visited : Visited) : Nat → Nat → List (Nat × Direction) →
    Option (List (Nat × Direction))
  | 0, _, _ => none
  | fuel + 1, next, path =>
      match vfind visited next with
      | some link =>
          match link.step with
          | some step => collectLoop visited fuel step.1 (path ++ [step])
          | none => some path
      | none => some path

def collect (visited : Visited) (start : Nat) : Option (List (Nat × Direction)) :=
  collectLoop visited (visited.length + 1) start []

/-- The semantic stream the search writes: the root node statement, one
edge statement per observed transition, one node statement per discovered
state (with its solved flag), and the green solution edges. -/
inductive Event where
  | rootNode : Nat → Event
  | edge : Nat → Nat → Event
  | node : Nat → Bool → Event
  | solutionEdge : Nat → Nat → Direction → Event
deriving DecidableEq, Repr

/-- The green solution edges, in the order the program prints them. -/
def greenEdges (prev : Nat) : List (Nat × Direction) → List Event
  | [] => []
  | s :: rest => Event.solutionEdge s.1 prev s.2 :: greenEdges s.1 rest

/-- The search's mutable state: the visited table, the frontier, the
emitted events, and (as pure instrumentation) the sequence of popped
fingerprints. -/
structure SearchState where
  visited : Visited
  heap : List Puzzle
  events : List Event
  pops : List Nat

/-- What one pass over the four directions can produce. -/
inductive StepRes where
  | cont : SearchState → Puzzle → StepRes
  | success : SearchState → List (Nat × Direction) → StepRes
  | died : StepRes

/-- The result of the whole search.  `died` models a panic (a failed
`unwrap`/`assert!`); `fuelOut` means the fuel ran out with the search still
going. -/
inductive Outcome where
  | success : SearchState → List (Nat × Direction) → Outcome
  | failure : SearchState → Outcome
  | died : Outcome
  | fuelOut : SearchState → Outcome

/-- Emit the `s{from} -> s{to}` edge statement. -/
def edgeSt (st : SearchState) (frm tgt : Nat) : SearchState :=
  { st with events := st.events ++ [Event.edge frm tgt] }

/-- The relaxation step: (re)write the visited entry when the state is new
or was recorded with a greater depth. -/
def relaxSt (st : SearchState) (tgt next frm : Nat) (d : Direction) : SearchState :=
  if (vfind st.visited tgt).isNone
      || (match vfind st.visited tgt with
          | some l => Nat.blt next l.depth
          | none => false) then
    { st with visited := vinsert st.visited tgt ⟨next, some (frm, d)⟩ }
  else st

/-- Emit the node statement for a newly discovered state. -/
def nodeSt (st : SearchState) (tgt : Nat) (solved : Bool) : SearchState :=
  { st with events := st.events ++ [Event.node tgt solved] }

/-- Push a clone of the post-slide board onto the frontier. -/
def pushSt (st : SearchState) (p1 : Puzzle) : SearchState :=
  { st with heap := heapPush p1 st.heap }

/-- The success return: reconstruct the path from the visited table and
emit the green solution edges. -/
def solvedStep (st : SearchState) (tgt : Nat) : StepRes :=
  match collect st.visited tgt with
  | some path =>
      StepRes.success { st with events := st.events ++ greenEdges tgt path } path
  | none => StepRes.died

/-- The `for d in ALL_DIRS` body of the search loop: probe a direction,
emit the edge, relax the visited entry, handle a newly discovered state
(emit its node, push a clone or, if solved, reconstruct and return), then
undo the probe (the `assert!` on the undo becomes `died` on failure). -/
def expandDirs (frm next : Nat) : List Direction → SearchState → Puzzle → StepRes
  | [], st, p => StepRes.cont st p
  | d :: ds, st, p =>
      if (p.slide d).1 then
        (if (vfind (edgeSt st frm (p.slide d).2.uniq).visited (p.slide d).2.uniq).isNone then
          (if (p.slide d).2.is_solved then
            solvedStep
              (nodeSt
                (relaxSt (edgeSt st frm (p.slide d).2.uniq) (p.slide d).2.uniq next frm d)
                (p.slide d).2.uniq (p.slide d).2.is_solved)
              (p.slide d).2.uniq
          else
            (if ((p.slide d).2.slide (invert d)).1 then
              expandDirs frm next ds
                (pushSt
                  (nodeSt
                    (relaxSt (edgeSt st frm (p.slide d).2.uniq) (p.slide d).2.uniq next frm d)
                    (p.slide d).2.uniq (p.slide d).2.is_solved)
                  (p.slide d).2)
                ((p.slide d).2.slide (invert d)).2
            else StepRes.died))
        else
          (if ((p.slide d).2.slide (invert d)).1 then
            expandDirs frm next ds
              (relaxSt (edgeSt st frm (p.slide d).2.uniq) (p.slide d).2.uniq next frm d)
              ((p.slide d).2.slide (invert d)).2
          else StepRes.died))
      else expandDirs frm next ds st p

/-- The `while states.len() > 0` loop, with fuel bounding the number of
pops. -/
def solveLoop : Nat → SearchState → Outcome
  | 0, st => Outcome.fuelOut st
  | fuel + 1, st =>
      match heapPop st.heap with
      | none => Outcome.failure st
      | some (p, rest) =>
          let frm := p.uniq
          match vfind st.visited frm with
          | none => Outcome.died
          | some link =>
              match expandDirs frm (link.depth + 1) ALL_DIRS
                  { st with heap := rest, pops := st.pops ++ [frm] } p with
              | StepRes.cont st' _ => solveLoop fuel st'
              | StepRes.success st' path => Outcome.success st' path
              | StepRes.died => Outcome.died

/-- The part of `solve` that runs on the scrambled root: seed the visited
table with the root, emit the root node, push the root, and run the loop. -/
def solveFrom (fuel : Nat) (p1 : Puzzle) : Outcome :=
  solveLoop fuel
    { visited := vinsert [] p1.uniq ⟨0, none⟩
      heap := heapPush p1 []
      events := [Event.rootNode p1.uniq]
      pops := [] }

/-- `solve(out, scramble, seed)`: build the solved board, scramble it with
the seed's draw stream, and search. -/
def solve (scramble : Nat) (rand : Nat → Nat) (sfuel fuel : Nat) : Outcome :=
  solveFrom fuel (Puzzle.new.scramble scramble rand sfuel)

/-- The reconstructed path of a search outcome, when it succeeded. -/
def Outcome.pathOf : Outcome → Option (List (Nat × Direction))
  | Outcome.success _ path => some path
  | _ => none

def Outcome.isSuccess : Outcome → Bool
  | Outcome.success _ _ => true
  | _ => false

/-- The events an outcome's final search state carries. -/
def Outcome.eventsOf : Outcome → List Event
  | Outcome.success st _ => st.events
  | Outcome.failure st => st.events
  | Outcome.died => []
  | Outcome.fuelOut st => st.events

/-- How many of the events are edge statements. -/
def countEdges (l : List Event) : Nat :=
  (l.filter fun e => match e with | Event.edge _ _ => true | _ => false).length

/-!  ## The board invariant

A board the program can actually build: the blank's recorded position is on
the grid and holds `Empty`, no other cell is `Empty`, every numbered cell is
in 1..MAX-1, no number repeats, and every number 1..MAX-1 is present.  The
out-of-range part of the (total) grid function is never read or written by
the program. -/
def Valid (p : Puzzle) : Prop :=
  p.empty_pos.1 < SIZE ∧ p.empty_pos.2 < SIZE ∧
  p.grid p.empty_pos = Tile.Empty ∧
  (∀ r < SIZE, ∀ c < SIZE, p.grid (r, c) = Tile.Empty → (r, c) = p.empty_pos) ∧
  (∀ r < SIZE, ∀ c < SIZE,
    tval (p.grid (r, c)) ≤ MAX - 1 ∧ (p.grid (r, c) ≠ Tile.Empty → 1 ≤ tval (p.grid (r, c)))) ∧
  (∀ r < SIZE, ∀ c < SIZE, ∀ r' < SIZE, ∀ c' < SIZE,
    p.grid (r, c) = p.grid (r', c') → p.grid (r, c) ≠ Tile.Empty → (r, c) = (r', c')) ∧
  (∀ n < MAX, 1 ≤ n → ∃ r < SIZE, ∃ c < SIZE, p.grid (r, c) = Tile.Number n)

/-- The cached-cost contract: the `cost` field equals `compute_cost()`. -/
def costOk (p : Puzzle) : Prop := p.cost = p.compute_cost

set_option synthInstance.maxSize 1000 in
theorem valid_new : Valid Puzzle.new := by unfold Valid; decide

theorem costOk_new : costOk Puzzle.new := by unfold costOk; decide

/-- Where a cell of the swapped grid comes from: the transposition of the
blank's cell and `pt`. -/
def swapMap (e pt q : Nat × Nat) : Nat × Nat :=
  if q = e then pt else if q = pt then e else q

theorem swapMap_invol (e pt q : Nat × Nat) : swapMap e pt (swapMap e pt q) = q := by
  unfold swapMap
  by_cases hqe : q = e <;> by_cases hqp : q = pt <;> by_cases hpe : pt = e <;>
    simp [hqe, hqp, hpe] <;> simp_all

theorem swap_with_empty_grid (p : Puzzle) (pt q : Nat × Nat) :
    (p.swap_with_empty pt).2.grid q = p.grid (swapMap p.empty_pos pt q) := by
  unfold Puzzle.swap_with_empty Puzzle.swap swapMap setCell
  by_cases hqe : q = p.empty_pos <;> by_cases hqp : q = pt <;>
    by_cases hpe : pt = p.empty_pos <;> simp [hqe, hqp, hpe] <;> simp_all

theorem swap_with_empty_empty_pos (p : Puzzle) (pt : Nat × Nat) :
    (p.swap_with_empty pt).2.empty_pos = pt := rfl

theorem swap_with_empty_fst (p : Puzzle) (pt : Nat × Nat) :
    (p.swap_with_empty pt).1 = true := rfl

theorem swapMap_range (e pt q : Nat × Nat) (he1 : e.1 < SIZE) (he2 : e.2 < SIZE)
    (hp1 : pt.1 < SIZE) (hp2 : pt.2 < SIZE) (hq1 : q.1 < SIZE) (hq2 : q.2 < SIZE) :
    (swapMap e pt q).1 < SIZE ∧ (swapMap e pt q).2 < SIZE := by
  unfold swapMap
  split <;> [skip; split] <;> simp_all

/-- `swap_with_empty` at an on-grid cell preserves the board invariant. -/
theorem valid_swap_with_empty (p : Puzzle) (pt : Nat × Nat)
    (hv : Valid p) (hp1 : pt.1 < SIZE) (hp2 : pt.2 < SIZE) :
    Valid (p.swap_with_empty pt).2 := by
  obtain ⟨he1, he2, hEmpAt, hEmpUniq, hRange, hInj, hAll⟩ := hv
  refine ⟨hp1, hp2, ?_, ?_, ?_, ?_, ?_⟩
  · rw [swap_with_empty_empty_pos, swap_with_empty_grid]
    unfold swapMap
    by_cases hpe : pt = p.empty_pos <;> simp [hpe, hEmpAt]
  · intro r hr c hc h
    rw [swap_with_empty_grid] at h
    rw [swap_with_empty_empty_pos]
    have hm := swapMap_range p.empty_pos pt (r, c) he1 he2 hp1 hp2 hr hc
    have h1 := hEmpUniq _ hm.1 _ hm.2 (by simpa using h)
    have h2 : swapMap p.empty_pos pt (r, c) = p.empty_pos := by simpa using h1
    have h3 := congrArg (swapMap p.empty_pos pt) h2
    rw [swapMap_invol] at h3
    rw [h3]
    simp [swapMap]
  · intro r hr c hc
    rw [swap_with_empty_grid]
    have hm := swapMap_range p.empty_pos pt (r, c) he1 he2 hp1 hp2 hr hc
    have := hRange _ hm.1 _ hm.2
    simpa using this
  · intro r hr c hc r' hr' c' hc' heq hne
    rw [swap_with_empty_grid] at heq hne
    rw [swap_with_empty_grid] at heq
    have hm := swapMap_range p.empty_pos pt (r, c) he1 he2 hp1 hp2 hr hc
    have hm' := swapMap_range p.empty_pos pt (r', c') he1 he2 hp1 hp2 hr' hc'
    have := hInj _ hm.1 _ hm.2 _ hm'.1 _ hm'.2 (by simpa using heq) (by simpa using hne)
    have h2 : swapMap p.empty_pos pt (r, c) = swapMap p.empty_pos pt (r', c') := by
      simpa using this
    have := congrArg (swapMap p.empty_pos pt) h2
    rw [swapMap_invol, swapMap_invol] at this
    exact this
  · intro n hn h1
    obtain ⟨r, hr, c, hc, hcell⟩ := hAll n hn h1
    have hm := swapMap_range p.empty_pos pt (r, c) he1 he2 hp1 hp2 hr hc
    refine ⟨(swapMap p.empty_pos pt (r, c)).1, hm.1,
      (swapMap p.empty_pos pt (r, c)).2, hm.2, ?_⟩
    rw [swap_with_empty_grid]
    rw [show ((swapMap p.empty_pos pt (r, c)).1, (swapMap p.empty_pos pt (r, c)).2)
      = swapMap p.empty_pos pt (r, c) from rfl]
    rw [swapMap_invol]
    exact hcell

/-- `slide` preserves the board invariant. -/
theorem valid_slide (p : Puzzle) (d : Direction) (hv : Valid p) : Valid (p.slide d).2 := by
  have he1 := hv.1
  have he2 := hv.2.1
  cases d <;> unfold Puzzle.slide <;> dsimp only
  · split
    · exact valid_swap_with_empty p _ hv (by omega) (by exact he2)
    · exact hv
  · split
    · next h => exact valid_swap_with_empty p _ hv h he2
    · exact hv
  · split
    · exact valid_swap_with_empty p _ hv he1 (by omega)
    · exact hv
  · split
    · next h => exact valid_swap_with_empty p _ hv he1 h
    · exact hv

/-- Every mutation re-establishes the cached-cost contract: a successful
`slide` recomputes the cost, a failed one changes nothing. -/
theorem costOk_slide (p : Puzzle) (d : Direction) (h : costOk p) : costOk (p.slide d).2 := by
  have hswap : ∀ pt : Nat × Nat, costOk (p.swap_with_empty pt).2 := by
    intro pt
    unfold costOk Puzzle.swap_with_empty Puzzle.swap Puzzle.compute_cost
    rfl
  cases d <;> unfold Puzzle.slide <;> dsimp only <;> split <;>
    first
      | exact hswap _
      | exact h

/-- `scramble` preserves the invariants (it only slides). -/
theorem valid_scrambleLoop (rand : Nat → Nat) (amount : Nat) :
    ∀ fuel idx previous moves p, Valid p →
      Valid (scrambleLoop rand amount fuel idx previous moves p) := by
  intro fuel
  induction fuel with
  | zero => intro idx previous moves p hv; exact hv
  | succ n ih =>
      intro idx previous moves p hv
      unfold scrambleLoop
      split
      · split
        · split
          · exact ih _ _ _ _ (valid_slide p _ hv)
          · exact ih _ _ _ _ (valid_slide p _ hv)
        · exact ih _ _ _ _ hv
      · exact hv

theorem costOk_scrambleLoop (rand : Nat → Nat) (amount : Nat) :
    ∀ fuel idx previous moves p, costOk p →
      costOk (scrambleLoop rand amount fuel idx previous moves p) := by
  intro fuel
  induction fuel with
  | zero => intro idx previous moves p hv; exact hv
  | succ n ih =>
      intro idx previous moves p hv
      unfold scrambleLoop
      split
      · split
        · split
          · exact ih _ _ _ _ (costOk_slide p _ hv)
          · exact ih _ _ _ _ (costOk_slide p _ hv)
        · exact ih _ _ _ _ hv
      · exact hv

/-!  ## Operation sequences

A board "obtained from `new()` followed by any sequence of slide and
scramble operations". -/
inductive Op where
  | slide : Direction → Op
  | scramble : Nat → (Nat → Nat) → Nat → Op

def applyOp (p : Puzzle) : Op → Puzzle
  | Op.slide d => (p.slide d).2
  | Op.scramble amount rand fuel => p.scramble amount rand fuel

def applyOps (p : Puzzle) (ops : List Op) : Puzzle := ops.foldl applyOp p

theorem valid_applyOp (p : Puzzle) (op : Op) (hv : Valid p) : Valid (applyOp p op) := by
  cases op with
  | slide d => exact valid_slide p d hv
  | scramble amount rand fuel => exact valid_scrambleLoop rand amount fuel 0 none 0 p hv

theorem costOk_applyOp (p : Puzzle) (op : Op) (hv : costOk p) : costOk (applyOp p op) := by
  cases op with
  | slide d => exact costOk_slide p d hv
  | scramble amount rand fuel => exact costOk_scrambleLoop rand amount fuel 0 none 0 p hv

theorem valid_applyOps (ops : List Op) : ∀ p, Valid p → Valid (applyOps p ops) := by
  induction ops with
  | nil => intro p hv; exact hv
  | cons op rest ih => intro p hv; exact ih _ (valid_applyOp p op hv)

theorem costOk_applyOps (ops : List Op) : ∀ p, costOk p → costOk (applyOps p ops) := by
  induction ops with
  | nil => intro p hv; exact hv
  | cons op rest ih => intro p hv; exact ih _ (costOk_applyOp p op hv)

/-- C4: for every Board obtained from `new()` followed by any sequence of
`slide` and `scramble` operations, the cached `cost` field equals
`compute_cost()`; every mutation re-establishes the equality (the
preservation lemmas `costOk_slide` and `costOk_scrambleLoop` are the
per-mutation steps, `costOk_new` the base case). -/
theorem claim_C4_cost_cache (ops : List Op) :
    (applyOps Puzzle.new ops).cost = (applyOps Puzzle.new ops).compute_cost :=
  costOk_applyOps ops Puzzle.new costOk_new

/-- C10: for every Puzzle produced by `new()` followed by any sequence of
`slide` and `scramble` operations, the board invariant holds: the cell at
`empty_pos` holds `Tile::Empty`, it is the only Empty cell, and the grid
holds each value 1..MAX-1 exactly once (`Valid` states exactly these
clauses). -/
theorem claim_C10_board_invariant (ops : List Op) : Valid (applyOps Puzzle.new ops) :=
  valid_applyOps ops Puzzle.new valid_new

/-!  ## The slide round-trip law -/

theorem puzzle_ext (p q : Puzzle) (hg : p.grid = q.grid)
    (he : p.empty_pos = q.empty_pos) (hc : p.cost = q.cost) : p = q := by
  cases p; cases q; simp_all

theorem compute_cost_congr (p q : Puzzle) (hg : p.grid = q.grid) :
    p.compute_cost = q.compute_cost := by
  unfold Puzzle.compute_cost; rw [hg]

theorem swapMap_comm (e pt q : Nat × Nat) : swapMap e pt q = swapMap pt e q := by
  unfold swapMap
  by_cases hqe : q = e <;> by_cases hqp : q = pt <;> simp [hqe, hqp] <;> simp_all

/-- Swapping the blank out to `pt` and back restores the board exactly,
provided the cached cost was consistent to begin with. -/
theorem swap_with_empty_roundtrip (p : Puzzle) (pt : Nat × Nat) (hc : costOk p) :
    ((p.swap_with_empty pt).2.swap_with_empty p.empty_pos).2 = p := by
  have hgrid : ((p.swap_with_empty pt).2.swap_with_empty p.empty_pos).2.grid = p.grid := by
    funext q
    rw [swap_with_empty_grid, swap_with_empty_empty_pos, swap_with_empty_grid]
    rw [← swapMap_comm p.empty_pos pt q, swapMap_invol]
  refine puzzle_ext _ _ hgrid (swap_with_empty_empty_pos _ _) ?_
  have h1 : ((p.swap_with_empty pt).2.swap_with_empty p.empty_pos).2.cost
      = ((p.swap_with_empty pt).2.swap_with_empty p.empty_pos).2.compute_cost := by
    unfold Puzzle.swap_with_empty Puzzle.swap Puzzle.compute_cost
    rfl
  rw [h1, compute_cost_congr _ p hgrid]
  exact hc.symm

/-- C5: if `slide(d)` succeeds, then `slide(opposite(d))` succeeds and
restores the Board exactly — same grid, same blank position, same cost —
for any board whose blank is on the grid and whose cached cost is
consistent (both hold for every board the program builds, by C10/C4). -/
theorem claim_C5_roundtrip (p : Puzzle) (d : Direction)
    (h1 : p.empty_pos.1 < SIZE) (h2 : p.empty_pos.2 < SIZE) (hc : costOk p)
    (hs : (p.slide d).1 = true) :
    ((p.slide d).2.slide (invert d)).1 = true ∧ ((p.slide d).2.slide (invert d)).2 = p := by
  cases d
  case Up =>
    have hcond : 0 < p.empty_pos.1 := by
      by_contra h
      unfold Puzzle.slide at hs
      rw [if_neg h] at hs
      exact Bool.false_ne_true hs
    have hstep : p.slide Direction.Up = p.swap_with_empty (p.empty_pos.1 - 1, p.empty_pos.2) := by
      unfold Puzzle.slide
      rw [if_pos hcond]
    rw [hstep]
    have hep : (p.swap_with_empty (p.empty_pos.1 - 1, p.empty_pos.2)).2.empty_pos
        = (p.empty_pos.1 - 1, p.empty_pos.2) := swap_with_empty_empty_pos _ _
    have hcond2 : (p.swap_with_empty (p.empty_pos.1 - 1, p.empty_pos.2)).2.empty_pos.1 + 1 < SIZE := by
      rw [hep]; dsimp only; omega
    have hstep2 : (p.swap_with_empty (p.empty_pos.1 - 1, p.empty_pos.2)).2.slide
        (invert Direction.Up)
        = (p.swap_with_empty (p.empty_pos.1 - 1, p.empty_pos.2)).2.swap_with_empty
          p.empty_pos := by
      show (p.swap_with_empty (p.empty_pos.1 - 1, p.empty_pos.2)).2.slide Direction.Down = _
      unfold Puzzle.slide
      rw [if_pos hcond2, hep]
      have : (p.empty_pos.1 - 1 + 1, p.empty_pos.2) = p.empty_pos := by
        rw [show p.empty_pos.1 - 1 + 1 = p.empty_pos.1 by omega]
      rw [this]
    rw [hstep2]
    exact ⟨swap_with_empty_fst _ _, swap_with_empty_roundtrip p _ hc⟩
  case Down =>
    have hcond : p.empty_pos.1 + 1 < SIZE := by
      by_contra h
      unfold Puzzle.slide at hs
      rw [if_neg h] at hs
      exact Bool.false_ne_true hs
    have hstep : p.slide Direction.Down = p.swap_with_empty (p.empty_pos.1 + 1, p.empty_pos.2) := by
      unfold Puzzle.slide
      rw [if_pos hcond]
    rw [hstep]
    have hep : (p.swap_with_empty (p.empty_pos.1 + 1, p.empty_pos.2)).2.empty_pos
        = (p.empty_pos.1 + 1, p.empty_pos.2) := swap_with_empty_empty_pos _ _
    have hcond2 : 0 < (p.swap_with_empty (p.empty_pos.1 + 1, p.empty_pos.2)).2.empty_pos.1 := by
      rw [hep]; dsimp only; omega
    have hstep2 : (p.swap_with_empty (p.empty_pos.1 + 1, p.empty_pos.2)).2.slide
        (invert Direction.Down)
        = (p.swap_with_empty (p.empty_pos.1 + 1, p.empty_pos.2)).2.swap_with_empty
          p.empty_pos := by
      show (p.swap_with_empty (p.empty_pos.1 + 1, p.empty_pos.2)).2.slide Direction.Up = _
      unfold Puzzle.slide
      rw [if_pos hcond2, hep]
      have : (p.empty_pos.1 + 1 - 1, p.empty_pos.2) = p.empty_pos := by
        rw [show p.empty_pos.1 + 1 - 1 = p.empty_pos.1 by omega]
      rw [this]
    rw [hstep2]
    exact ⟨swap_with_empty_fst _ _, swap_with_empty_roundtrip p _ hc⟩
  case Left =>
    have hcond : 0 < p.empty_pos.2 := by
      by_contra h
      unfold Puzzle.slide at hs
      rw [if_neg h] at hs
      exact Bool.false_ne_true hs
    have hstep : p.slide Direction.Left = p.swap_with_empty (p.empty_pos.1, p.empty_pos.2 - 1) := by
      unfold Puzzle.slide
      rw [if_pos hcond]
    rw [hstep]
    have hep : (p.swap_with_empty (p.empty_pos.1, p.empty_pos.2 - 1)).2.empty_pos
        = (p.empty_pos.1, p.empty_pos.2 - 1) := swap_with_empty_empty_pos _ _
    have hcond2 : (p.swap_with_empty (p.empty_pos.1, p.empty_pos.2 - 1)).2.empty_pos.2 + 1 < SIZE := by
      rw [hep]; dsimp only; omega
    have hstep2 : (p.swap_with_empty (p.empty_pos.1, p.empty_pos.2 - 1)).2.slide
        (invert Direction.Left)
        = (p.swap_with_empty (p.empty_pos.1, p.empty_pos.2 - 1)).2.swap_with_empty
          p.empty_pos := by
      show (p.swap_with_empty (p.empty_pos.1, p.empty_pos.2 - 1)).2.slide Direction.Right = _
      unfold Puzzle.slide
      rw [if_pos hcond2, hep]
      have : (p.empty_pos.1, p.empty_pos.2 - 1 + 1) = p.empty_pos := by
        rw [show p.empty_pos.2 - 1 + 1 = p.empty_pos.2 by omega]
      rw [this]
    rw [hstep2]
    exact ⟨swap_with_empty_fst _ _, swap_with_empty_roundtrip p _ hc⟩
  case Right =>
    have hcond : p.empty_pos.2 + 1 < SIZE := by
      by_contra h
      unfold Puzzle.slide at hs
      rw [if_neg h] at hs
      exact Bool.false_ne_true hs
    have hstep : p.slide Direction.Right = p.swap_with_empty (p.empty_pos.1, p.empty_pos.2 + 1) := by
      unfold Puzzle.slide
      rw [if_pos hcond]
    rw [hstep]
    have hep : (p.swap_with_empty (p.empty_pos.1, p.empty_pos.2 + 1)).2.empty_pos
        = (p.empty_pos.1, p.empty_pos.2 + 1) := swap_with_empty_empty_pos _ _
    have hcond2 : 0 < (p.swap_with_empty (p.empty_pos.1, p.empty_pos.2 + 1)).2.empty_pos.2 := by
      rw [hep]; dsimp only; omega
    have hstep2 : (p.swap_with_empty (p.empty_pos.1, p.empty_pos.2 + 1)).2.slide
        (invert Direction.Right)
        = (p.swap_with_empty (p.empty_pos.1, p.empty_pos.2 + 1)).2.swap_with_empty
          p.empty_pos := by
      show (p.swap_with_empty (p.empty_pos.1, p.empty_pos.2 + 1)).2.slide Direction.Left = _
      unfold Puzzle.slide
      rw [if_pos hcond2, hep]
      have : (p.empty_pos.1, p.empty_pos.2 + 1 - 1) = p.empty_pos := by
        rw [show p.empty_pos.2 + 1 - 1 = p.empty_pos.2 by omega]
      rw [this]
    rw [hstep2]
    exact ⟨swap_with_empty_fst _ _, swap_with_empty_roundtrip p _ hc⟩

/-- C5 at a concrete input: one Left slide from the solved board, undone by
a Right slide. -/
theorem claim_C5_witness :
    ((Puzzle.new.slide Direction.Left).2.slide (invert Direction.Left)).1 = true ∧
    ((Puzzle.new.slide Direction.Left).2.slide (invert Direction.Left)).2 = Puzzle.new :=
  claim_C5_roundtrip Puzzle.new Direction.Left (by decide) (by decide) costOk_new (by decide)

/-!  ## Illegal slides -/

/-- The blank sits on the grid edge in direction `d`. -/
def onEdge (p : Puzzle) (d : Direction) : Prop :=
  match d with
  | Direction.Up => p.empty_pos.1 = 0
  | Direction.Down => p.empty_pos.1 = SIZE - 1
  | Direction.Left => p.empty_pos.2 = 0
  | Direction.Right => p.empty_pos.2 = SIZE - 1

/-- C7: `slide(d)` returns false exactly when the blank is on the edge in
direction `d` (for any board whose blank is on the grid, as every board the
program builds is), and a failed slide leaves the board completely
unchanged; no error is raised — the function is total. -/
theorem claim_C7_illegal_slide (p : Puzzle) (d : Direction)
    (h1 : p.empty_pos.1 < SIZE) (h2 : p.empty_pos.2 < SIZE) :
    ((p.slide d).1 = false ↔ onEdge p d) ∧ ((p.slide d).1 = false → (p.slide d).2 = p) := by
  cases d <;> unfold Puzzle.slide onEdge <;> dsimp only <;> split <;>
    rename_i hcond <;> refine ⟨?_, ?_⟩
  case Up.isTrue.refine_1 =>
    rw [swap_with_empty_fst]
    exact ⟨fun h => absurd h (by simp), fun h => absurd h (by omega)⟩
  case Up.isTrue.refine_2 =>
    rw [swap_with_empty_fst]
    exact fun h => absurd h (by simp)
  case Up.isFalse.refine_1 =>
    exact ⟨fun _ => by omega, fun _ => rfl⟩
  case Up.isFalse.refine_2 =>
    exact fun _ => rfl
  case Down.isTrue.refine_1 =>
    rw [swap_with_empty_fst]
    exact ⟨fun h => absurd h (by simp), fun h => absurd h (by omega)⟩
  case Down.isTrue.refine_2 =>
    rw [swap_with_empty_fst]
    exact fun h => absurd h (by simp)
  case Down.isFalse.refine_1 =>
    exact ⟨fun _ => by omega, fun _ => rfl⟩
  case Down.isFalse.refine_2 =>
    exact fun _ => rfl
  case Left.isTrue.refine_1 =>
    rw [swap_with_empty_fst]
    exact ⟨fun h => absurd h (by simp), fun h => absurd h (by omega)⟩
  case Left.isTrue.refine_2 =>
    rw [swap_with_empty_fst]
    exact fun h => absurd h (by simp)
  case Left.isFalse.refine_1 =>
    exact ⟨fun _ => by omega, fun _ => rfl⟩
  case Left.isFalse.refine_2 =>
    exact fun _ => rfl
  case Right.isTrue.refine_1 =>
    rw [swap_with_empty_fst]
    exact ⟨fun h => absurd h (by simp), fun h => absurd h (by omega)⟩
  case Right.isTrue.refine_2 =>
    rw [swap_with_empty_fst]
    exact fun h => absurd h (by simp)
  case Right.isFalse.refine_1 =>
    exact ⟨fun _ => by omega, fun _ => rfl⟩
  case Right.isFalse.refine_2 =>
    exact fun _ => rfl

/-- C7 at a concrete input: from the solved board (blank at the
bottom-right), sliding Right is illegal and changes nothing, and the
blank is on the right edge. -/
theorem claim_C7_witness :
    ((Puzzle.new.slide Direction.Right).1 = false ↔ onEdge Puzzle.new Direction.Right) ∧
    ((Puzzle.new.slide Direction.Right).1 = false →
      (Puzzle.new.slide Direction.Right).2 = Puzzle.new) :=
  claim_C7_illegal_slide Puzzle.new Direction.Right (by decide) (by decide)

/-!  ## Frontier ordering -/

/-- The `Ord` in arithmetic form: `a` is below `b` (pops after it) exactly
when `a` costs more, or costs the same with the smaller fingerprint. -/
theorem pcmp_lt_iff (a b : Puzzle) :
    pcmp a b = Ordering.lt ↔ (b.cost < a.cost ∨ (b.cost = a.cost ∧ a.uniq < b.uniq)) := by
  unfold pcmp
  rcases Nat.lt_trichotomy b.cost a.cost with h | h | h
  · rw [Nat.compare_eq_lt.2 h]
    exact iff_of_true rfl (Or.inl h)
  · rw [Nat.compare_eq_eq.2 h]
    show compare a.uniq b.uniq = Ordering.lt ↔ _
    rw [Nat.compare_eq_lt]
    constructor
    · intro h2; exact Or.inr ⟨h, h2⟩
    · rintro (h2 | ⟨h2, h3⟩)
      · omega
      · exact h3
  · rw [Nat.compare_eq_gt.2 h]
    exact iff_of_false (fun hh => Ordering.noConfusion hh) (by omega)

theorem heapPop_ne_none (x : Puzzle) (xs : List Puzzle) : heapPop (x :: xs) ≠ none := by
  unfold heapPop
  rcases hxs : heapPop xs with _ | ⟨m, rest⟩
  · simp
  · dsimp only
    split <;> simp

theorem heapPop_mem : ∀ (l : List Puzzle) (p : Puzzle) (rest : List Puzzle),
    heapPop l = some (p, rest) → p ∈ l ∧ ∀ q ∈ rest, q ∈ l := by
  intro l
  induction l with
  | nil => intro p rest h; simp [heapPop] at h
  | cons x xs ih =>
      intro p rest h
      unfold heapPop at h
      rcases hxs : heapPop xs with _ | ⟨m, r⟩ <;> rw [hxs] at h
      · dsimp only at h
        injection h with h
        injection h with h1 h2
        subst h1; subst h2
        exact ⟨List.mem_cons_self x xs, by intro q hq; simp at hq⟩
      · dsimp only at h
        split at h
        · injection h with h
          injection h with h1 h2
          subst h1; subst h2
          obtain ⟨hm, hr⟩ := ih m r hxs
          refine ⟨List.mem_cons_of_mem x hm, ?_⟩
          intro q hq
          rcases List.mem_cons.1 hq with hq | hq
          · rw [hq]; exact List.mem_cons_self x xs
          · exact List.mem_cons_of_mem x (hr q hq)
        · injection h with h
          injection h with h1 h2
          subst h1; subst h2
          exact ⟨List.mem_cons_self x xs, fun q hq => List.mem_cons_of_mem x hq⟩

theorem heapPop_max : ∀ (l : List Puzzle) (p : Puzzle) (rest : List Puzzle),
    heapPop l = some (p, rest) → ∀ q ∈ l, pcmp p q ≠ Ordering.lt := by
  intro l
  induction l with
  | nil => intro p rest h; simp [heapPop] at h
  | cons x xs ih =>
      intro p rest h q hq
      unfold heapPop at h
      rcases hxs : heapPop xs with _ | ⟨m, r⟩ <;> rw [hxs] at h
      · dsimp only at h
        injection h with h
        injection h with h1 h2
        subst h1
        have hxsnil : xs = [] := by
          cases xs with
          | nil => rfl
          | cons y ys => exact absurd hxs (heapPop_ne_none y ys)
        subst hxsnil
        rcases List.mem_cons.1 hq with hq | hq
        · subst hq; simp only [ne_eq, pcmp_lt_iff]; omega
        · simp at hq
      · dsimp only at h
        split at h
        · next hlt =>
            injection h with h
            injection h with h1 h2
            subst h1
            rcases List.mem_cons.1 hq with hq | hq
            · subst hq
              rw [pcmp_lt_iff] at hlt
              simp only [ne_eq, pcmp_lt_iff]
              omega
            · exact ih m r hxs q hq
        · next hnlt =>
            injection h with h
            injection h with h1 h2
            subst h1
            rcases List.mem_cons.1 hq with hq | hq
            · subst hq; simp only [ne_eq, pcmp_lt_iff]; omega
            · have h1 := ih m r hxs q hq
              simp only [ne_eq, pcmp_lt_iff] at h1 hnlt ⊢
              omega

/-- The solved board slid Left: cost 2; of the pair below, the one with the
larger fingerprint. -/
def boardL : Puzzle := (Puzzle.new.slide Direction.Left).2

/-- The solved board slid Up: cost 2; the smaller fingerprint. -/
def boardU : Puzzle := (Puzzle.new.slide Direction.Up).2

/-- C2 counterexample: two equal-cost boards in the frontier, and the one
with the SMALLER fingerprint does not pop first — with either insertion
order, the pop is the board with the LARGER fingerprint (the `Ord` reverses
the cost comparison but not the fingerprint comparison, and `BinaryHeap`
pops the greatest element). -/
theorem claim_C2_counterexample :
    boardL.cost = boardU.cost ∧ boardU.uniq < boardL.uniq ∧
    (heapPop (heapPush boardL (heapPush boardU []))).map (fun x => x.1.uniq)
      = some boardL.uniq ∧
    (heapPop (heapPush boardU (heapPush boardL []))).map (fun x => x.1.uniq)
      = some boardL.uniq := by
  refine ⟨by decide, by decide, by decide, by decide⟩

/-- C2 amended: the frontier pops a lowest-cost Board first, and when two
Boards have equal cost the tie is broken by fingerprint DESCENDING: the
popped board's fingerprint is the largest among the equal-cost boards. -/
theorem claim_C2_amended_pop_order (l : List Puzzle) (p : Puzzle) (rest : List Puzzle)
    (hpop : heapPop l = some (p, rest)) :
    ∀ q ∈ l, p.cost < q.cost ∨ (p.cost = q.cost ∧ q.uniq ≤ p.uniq) := by
  intro q hq
  have h1 := heapPop_max l p rest hpop q hq
  simp only [ne_eq, pcmp_lt_iff] at h1
  omega

/-- C2 amended, at a concrete input. -/
theorem claim_C2_witness :
    boardL.cost < boardU.cost ∨ (boardL.cost = boardU.cost ∧ boardU.uniq ≤ boardL.uniq) :=
  claim_C2_amended_pop_order (heapPush boardL (heapPush boardU [])) boardL
    (heapPush boardU []) rfl boardU
    (List.mem_cons_of_mem boardL (List.mem_cons_self boardU []))

/-!  ## Fuel monotonicity of the search loop -/

def Outcome.isFuelOut : Outcome → Bool
  | Outcome.fuelOut _ => true
  | _ => false

theorem solveLoop_mono (k : Nat) : ∀ (fuel : Nat) (st : SearchState),
    (solveLoop fuel st).isFuelOut = false →
    solveLoop (fuel + k) st = solveLoop fuel st := by
  intro fuel
  induction fuel with
  | zero => intro st h; simp [solveLoop, Outcome.isFuelOut] at h
  | succ n ih =>
      intro st h
      rw [show n + 1 + k = (n + k) + 1 by omega]
      unfold solveLoop at h ⊢
      rcases hpop : heapPop st.heap with _ | ⟨p, rest⟩ <;> rw [hpop] at h
      dsimp only at h ⊢
      rcases hfind : vfind st.visited p.uniq with _ | link <;> rw [hfind] at h
      dsimp only at h ⊢
      rcases hexp : expandDirs p.uniq (link.depth + 1) ALL_DIRS
          { st with heap := rest, pops := st.pops ++ [p.uniq] } p
        with ⟨st2, p2⟩ | ⟨st2, path⟩ | _ <;> rw [hexp] at h
      dsimp only at h ⊢
      exact ih st2 h

/-!  ## The cost heuristic -/

/-- The in-range part of the grid agrees with the solved grid. -/
def solvedGrid (p : Puzzle) : Prop :=
  ∀ r < SIZE, ∀ c < SIZE, p.grid (r, c) = Puzzle.new.grid (r, c)

/-- The solved grid cell by cell. -/
theorem new_grid_char : ∀ r < SIZE, ∀ c < SIZE,
    Puzzle.new.grid (r, c)
      = if r = LIMIT ∧ c = LIMIT then Tile.Empty else Tile.Number (r * SIZE + c + 1) := by
  decide

/-- `compute_cost` reads only the in-range part of the grid. -/
theorem compute_cost_in_range_congr (p q : Puzzle)
    (h : ∀ r < SIZE, ∀ c < SIZE, p.grid (r, c) = q.grid (r, c)) :
    p.compute_cost = q.compute_cost := by
  unfold Puzzle.compute_cost
  refine Finset.sum_congr rfl fun r hr => Finset.sum_congr rfl fun c hc => ?_
  rw [h r (Finset.mem_range.1 hr) c (Finset.mem_range.1 hc)]

/-- For a board satisfying the invariant, the heuristic vanishes exactly on
the solved configuration. -/
theorem compute_cost_eq_zero_iff (p : Puzzle) (hv : Valid p) :
    p.compute_cost = 0 ↔ solvedGrid p := by
  constructor
  · intro hz
    intro r hr c hc
    have hcell : cellCost (p.grid (r, c)) r c = 0 := by
      have h1 := (Finset.sum_eq_zero_iff.1 hz) r (Finset.mem_range.2 hr)
      exact (Finset.sum_eq_zero_iff.1 h1) c (Finset.mem_range.2 hc)
    rw [new_grid_char r hr c hc]
    obtain ⟨-, -, -, -, hRange, -, -⟩ := hv
    rcases hgc : p.grid (r, c) with _ | n
    · rw [hgc] at hcell
      unfold cellCost abs_diff goalOf at hcell
      dsimp only at hcell
      unfold LIMIT at hcell ⊢
      unfold SIZE at hcell ⊢
      rw [if_pos]
      omega
    · have hn := hRange r hr c hc
      rw [hgc] at hn hcell
      have hn8 : n ≤ MAX - 1 := hn.1
      have h1n : 1 ≤ n := hn.2 (fun hh => Tile.noConfusion hh)
      unfold cellCost abs_diff goalOf solved_pos at hcell
      dsimp only at hcell
      unfold MAX at hn8
      unfold LIMIT
      unfold SIZE at hn8 hcell hr hc ⊢
      have hval : n = r * 3 + c + 1 := by omega
      rw [if_neg]
      · rw [hval]
      · omega
  · intro hsg
    rw [compute_cost_in_range_congr p Puzzle.new hsg]
    decide

/-- Moving a tile to an adjacent cell changes its cost term by at most 1. -/
theorem cellCost_adjacent (t : Tile) (r c r' c' : Nat)
    (hadj : abs_diff r r' + abs_diff c c' = 1) :
    cellCost t r c ≤ cellCost t r' c' + 1 := by
  unfold cellCost abs_diff at *
  omega

/-- A sum over a finite set whose summands change at only two points, by a
combined total of at most 2, changes by at most 2. -/
theorem sum_two_point_bound (S : Finset (Nat × Nat)) (F G : Nat × Nat → Nat)
    (a b : Nat × Nat) (ha : a ∈ S) (hb : b ∈ S) (hab : a ≠ b)
    (hother : ∀ x ∈ S, x ≠ a → x ≠ b → F x = G x)
    (hpair : F a + F b ≤ G a + G b + 2) :
    S.sum F ≤ S.sum G + 2 := by
  have hb1 : b ∈ S.erase a := Finset.mem_erase.2 ⟨Ne.symm hab, hb⟩
  have h1F : F a + (S.erase a).sum F = S.sum F := Finset.add_sum_erase S F ha
  have h2F : F b + ((S.erase a).erase b).sum F = (S.erase a).sum F :=
    Finset.add_sum_erase (S.erase a) F hb1
  have h1G : G a + (S.erase a).sum G = S.sum G := Finset.add_sum_erase S G ha
  have h2G : G b + ((S.erase a).erase b).sum G = (S.erase a).sum G :=
    Finset.add_sum_erase (S.erase a) G hb1
  have hrest : ((S.erase a).erase b).sum F = ((S.erase a).erase b).sum G := by
    refine Finset.sum_congr rfl fun x hx => ?_
    have hx1 := Finset.mem_erase.1 hx
    have hx2 := Finset.mem_erase.1 hx1.2
    exact hother x hx2.2 hx2.1 hx1.1
  omega

/-- `compute_cost` as a sum over the cell grid. -/
theorem compute_cost_product (q : Puzzle) :
    q.compute_cost
      = (Finset.range SIZE ×ˢ Finset.range SIZE).sum
          (fun x => cellCost (q.grid (x.1, x.2)) x.1 x.2) := by
  unfold Puzzle.compute_cost
  rw [Finset.sum_product]

/-- A successful blank swap to an adjacent on-grid cell decreases
`compute_cost` by at most 2. -/
theorem compute_cost_swe_bound (p : Puzzle) (pt : Nat × Nat)
    (he1 : p.empty_pos.1 < SIZE) (he2 : p.empty_pos.2 < SIZE)
    (hp1 : pt.1 < SIZE) (hp2 : pt.2 < SIZE)
    (hadj : abs_diff p.empty_pos.1 pt.1 + abs_diff p.empty_pos.2 pt.2 = 1) :
    p.compute_cost ≤ (p.swap_with_empty pt).2.compute_cost + 2 := by
  have hne : p.empty_pos ≠ pt := by
    intro hh
    rw [hh] at hadj
    unfold abs_diff at hadj
    omega
  rw [compute_cost_product, compute_cost_product]
  refine sum_two_point_bound _ _ _ p.empty_pos pt ?_ ?_ hne ?_ ?_
  · exact Finset.mem_product.2 ⟨Finset.mem_range.2 he1, Finset.mem_range.2 he2⟩
  · exact Finset.mem_product.2 ⟨Finset.mem_range.2 hp1, Finset.mem_range.2 hp2⟩
  · intro x hx hxa hxb
    rw [show ((x.1, x.2) : Nat × Nat) = x from rfl, swap_with_empty_grid]
    unfold swapMap
    rw [if_neg hxa, if_neg hxb]
  · have hga : (p.swap_with_empty pt).2.grid (p.empty_pos.1, p.empty_pos.2) = p.grid pt := by
      rw [show ((p.empty_pos.1, p.empty_pos.2) : Nat × Nat) = p.empty_pos from rfl,
        swap_with_empty_grid]
      unfold swapMap
      rw [if_pos rfl]
    have hgb : (p.swap_with_empty pt).2.grid (pt.1, pt.2) = p.grid p.empty_pos := by
      rw [show ((pt.1, pt.2) : Nat × Nat) = pt from rfl, swap_with_empty_grid]
      unfold swapMap
      rw [if_neg (Ne.symm hne), if_pos rfl]
    rw [show ((p.empty_pos.1, p.empty_pos.2) : Nat × Nat) = p.empty_pos from rfl] at hga ⊢
    rw [show ((pt.1, pt.2) : Nat × Nat) = pt from rfl] at hgb ⊢
    rw [hga, hgb]
    have b1 : cellCost (p.grid p.empty_pos) p.empty_pos.1 p.empty_pos.2
        ≤ cellCost (p.grid p.empty_pos) pt.1 pt.2 + 1 := cellCost_adjacent _ _ _ _ _ hadj
    have b2 : cellCost (p.grid pt) pt.1 pt.2
        ≤ cellCost (p.grid pt) p.empty_pos.1 p.empty_pos.2 + 1 := by
      refine cellCost_adjacent _ _ _ _ _ ?_
      unfold abs_diff at hadj ⊢
      omega
    omega

/-- A successful `slide` decreases `compute_cost` by at most 2. -/
theorem compute_cost_slide_bound (p : Puzzle) (d : Direction)
    (he1 : p.empty_pos.1 < SIZE) (he2 : p.empty_pos.2 < SIZE)
    (hs : (p.slide d).1 = true) :
    p.compute_cost ≤ (p.slide d).2.compute_cost + 2 := by
  cases d
  case Up =>
    have hcond : 0 < p.empty_pos.1 := by
      by_contra h
      unfold Puzzle.slide at hs
      rw [if_neg h] at hs
      exact Bool.false_ne_true hs
    have hstep : p.slide Direction.Up = p.swap_with_empty (p.empty_pos.1 - 1, p.empty_pos.2) := by
      unfold Puzzle.slide
      rw [if_pos hcond]
    rw [hstep]
    refine compute_cost_swe_bound p _ he1 he2 (by dsimp only; omega) (by dsimp only; omega) ?_
    unfold abs_diff
    dsimp only
    omega
  case Down =>
    have hcond : p.empty_pos.1 + 1 < SIZE := by
      by_contra h
      unfold Puzzle.slide at hs
      rw [if_neg h] at hs
      exact Bool.false_ne_true hs
    have hstep : p.slide Direction.Down = p.swap_with_empty (p.empty_pos.1 + 1, p.empty_pos.2) := by
      unfold Puzzle.slide
      rw [if_pos hcond]
    rw [hstep]
    refine compute_cost_swe_bound p _ he1 he2 (by dsimp only; omega) (by dsimp only; omega) ?_
    unfold abs_diff
    dsimp only
    omega
  case Left =>
    have hcond : 0 < p.empty_pos.2 := by
      by_contra h
      unfold Puzzle.slide at hs
      rw [if_neg h] at hs
      exact Bool.false_ne_true hs
    have hstep : p.slide Direction.Left = p.swap_with_empty (p.empty_pos.1, p.empty_pos.2 - 1) := by
      unfold Puzzle.slide
      rw [if_pos hcond]
    rw [hstep]
    refine compute_cost_swe_bound p _ he1 he2 (by dsimp only; omega) (by dsimp only; omega) ?_
    unfold abs_diff
    dsimp only
    omega
  case Right =>
    have hcond : p.empty_pos.2 + 1 < SIZE := by
      by_contra h
      unfold Puzzle.slide at hs
      rw [if_neg h] at hs
      exact Bool.false_ne_true hs
    have hstep : p.slide Direction.Right = p.swap_with_empty (p.empty_pos.1, p.empty_pos.2 + 1) := by
      unfold Puzzle.slide
      rw [if_pos hcond]
    rw [hstep]
    refine compute_cost_swe_bound p _ he1 he2 (by dsimp only; omega) (by dsimp only; omega) ?_
    unfold abs_diff
    dsimp only
    omega

/-- C8: `compute_cost()` is never negative (it is a `usize` in the code and
a `Nat` here), it is zero exactly at the solved configuration, and across a
single successful slide it decreases by at most 2 (cost before ≤ cost after
+ 2), for every board satisfying the data-model invariant (every board the
program builds does, by C10). -/
theorem claim_C8_cost_properties (p : Puzzle) (d : Direction) (hv : Valid p) :
    0 ≤ p.compute_cost ∧
    (p.compute_cost = 0 ↔ solvedGrid p) ∧
    ((p.slide d).1 = true → p.compute_cost ≤ (p.slide d).2.compute_cost + 2) := by
  refine ⟨Nat.zero_le _, compute_cost_eq_zero_iff p hv, ?_⟩
  intro hs
  exact compute_cost_slide_bound p d hv.1 hv.2.1 hs

/-- C8 at a concrete input: the board one Left slide from solved, slid
Right. -/
theorem claim_C8_witness :
    0 ≤ boardL.compute_cost ∧
    (boardL.compute_cost = 0 ↔ solvedGrid boardL) ∧
    ((boardL.slide Direction.Right).1 = true →
      boardL.compute_cost ≤ (boardL.slide Direction.Right).2.compute_cost + 2) :=
  claim_C8_cost_properties boardL Direction.Right
    (valid_slide Puzzle.new Direction.Left valid_new)

/-!  ## Fingerprint injectivity -/

/-- `uniq` written out: Horner evaluation of the nine cell digits. -/
theorem uniq_expand (p : Puzzle) :
    p.uniq = ((((((((0 * 16 + tval (p.grid (0, 0))) * 16 + tval (p.grid (0, 1))) * 16
      + tval (p.grid (0, 2))) * 16 + tval (p.grid (1, 0))) * 16 + tval (p.grid (1, 1))) * 16
      + tval (p.grid (1, 2))) * 16 + tval (p.grid (2, 0))) * 16 + tval (p.grid (2, 1))) * 16
      + tval (p.grid (2, 2)) := rfl

/-- Nine base-16 digits determine the packed value. -/
theorem horner16_inj (a0 a1 a2 a3 a4 a5 a6 a7 a8 b0 b1 b2 b3 b4 b5 b6 b7 b8 : Nat)
    (h0 : a0 < 16) (h1 : a1 < 16) (h2 : a2 < 16) (h3 : a3 < 16) (h4 : a4 < 16)
    (h5 : a5 < 16) (h6 : a6 < 16) (h7 : a7 < 16) (h8 : a8 < 16)
    (g0 : b0 < 16) (g1 : b1 < 16) (g2 : b2 < 16) (g3 : b3 < 16) (g4 : b4 < 16)
    (g5 : b5 < 16) (g6 : b6 < 16) (g7 : b7 < 16) (g8 : b8 < 16)
    (h : ((((((((0 * 16 + a0) * 16 + a1) * 16 + a2) * 16 + a3) * 16 + a4) * 16 + a5) * 16
        + a6) * 16 + a7) * 16 + a8
      = ((((((((0 * 16 + b0) * 16 + b1) * 16 + b2) * 16 + b3) * 16 + b4) * 16 + b5) * 16
        + b6) * 16 + b7) * 16 + b8) :
    a0 = b0 ∧ a1 = b1 ∧ a2 = b2 ∧ a3 = b3 ∧ a4 = b4 ∧ a5 = b5 ∧ a6 = b6 ∧ a7 = b7 ∧ a8 = b8 := by
  omega

/-- Every cell digit of a board satisfying the invariant fits in base 16. -/
theorem tval_lt_16 (p : Puzzle) (hv : Valid p) (r c : Nat) (hr : r < SIZE) (hc : c < SIZE) :
    tval (p.grid (r, c)) < 16 := by
  obtain ⟨-, -, -, -, hRange, -, -⟩ := hv
  have h := (hRange r hr c hc).1
  unfold MAX SIZE at h
  omega

/-- Cells with equal digits are equal tiles, on boards satisfying the
invariant (the digit 0 is only ever the blank). -/
theorem tile_eq_of_tval_eq (p q : Puzzle) (hp : Valid p) (hq : Valid q) (r c : Nat)
    (hr : r < SIZE) (hc : c < SIZE)
    (h : tval (p.grid (r, c)) = tval (q.grid (r, c))) : p.grid (r, c) = q.grid (r, c) := by
  obtain ⟨-, -, -, -, hRangeP, -, -⟩ := hp
  obtain ⟨-, -, -, -, hRangeQ, -, -⟩ := hq
  have hP2 := (hRangeP r hr c hc).2
  have hQ2 := (hRangeQ r hr c hc).2
  rcases hgp : p.grid (r, c) with _ | n <;> rcases hgq : q.grid (r, c) with _ | m <;>
    rw [hgp, hgq] at h <;> rw [hgp] at hP2 <;> rw [hgq] at hQ2
  case Empty.Number =>
    simp [tval] at h hQ2
    omega
  case Number.Empty =>
    simp [tval] at h hP2
    omega
  case Number.Number =>
    simp [tval] at h
    rw [h]

/-- `uniq` reads only the in-range part of the grid. -/
theorem uniq_in_range_congr (p q : Puzzle)
    (h : ∀ r < SIZE, ∀ c < SIZE, p.grid (r, c) = q.grid (r, c)) : p.uniq = q.uniq := by
  rw [uniq_expand, uniq_expand]
  have s3 : (0 : Nat) < SIZE := by decide
  have s0 : (0 : Nat) < SIZE := by decide
  have s1 : (1 : Nat) < SIZE := by decide
  have s2 : (2 : Nat) < SIZE := by decide
  rw [h 0 s0 0 s0, h 0 s0 1 s1, h 0 s0 2 s2, h 1 s1 0 s0, h 1 s1 1 s1, h 1 s1 2 s2,
    h 2 s2 0 s0, h 2 s2 1 s1, h 2 s2 2 s2]

/-- Boards satisfying the invariant with equal fingerprints have equal
in-range grids. -/
theorem uniq_inj_valid (p q : Puzzle) (hp : Valid p) (hq : Valid q) (hu : p.uniq = q.uniq) :
    ∀ r < SIZE, ∀ c < SIZE, p.grid (r, c) = q.grid (r, c) := by
  have s0 : (0 : Nat) < SIZE := by decide
  have s1 : (1 : Nat) < SIZE := by decide
  have s2 : (2 : Nat) < SIZE := by decide
  rw [uniq_expand, uniq_expand] at hu
  have hdig := horner16_inj _ _ _ _ _ _ _ _ _ _ _ _ _ _ _ _ _ _
    (tval_lt_16 p hp 0 0 s0 s0) (tval_lt_16 p hp 0 1 s0 s1) (tval_lt_16 p hp 0 2 s0 s2)
    (tval_lt_16 p hp 1 0 s1 s0) (tval_lt_16 p hp 1 1 s1 s1) (tval_lt_16 p hp 1 2 s1 s2)
    (tval_lt_16 p hp 2 0 s2 s0) (tval_lt_16 p hp 2 1 s2 s1) (tval_lt_16 p hp 2 2 s2 s2)
    (tval_lt_16 q hq 0 0 s0 s0) (tval_lt_16 q hq 0 1 s0 s1) (tval_lt_16 q hq 0 2 s0 s2)
    (tval_lt_16 q hq 1 0 s1 s0) (tval_lt_16 q hq 1 1 s1 s1) (tval_lt_16 q hq 1 2 s1 s2)
    (tval_lt_16 q hq 2 0 s2 s0) (tval_lt_16 q hq 2 1 s2 s1) (tval_lt_16 q hq 2 2 s2 s2)
    hu
  obtain ⟨e0, e1, e2, e3, e4, e5, e6, e7, e8⟩ := hdig
  intro r hr c hc
  have hr3 : r < 3 := by unfold SIZE at hr; omega
  have hc3 : c < 3 := by unfold SIZE at hc; omega
  interval_cases r <;> interval_cases c
  · exact tile_eq_of_tval_eq p q hp hq 0 0 s0 s0 e0
  · exact tile_eq_of_tval_eq p q hp hq 0 1 s0 s1 e1
  · exact tile_eq_of_tval_eq p q hp hq 0 2 s0 s2 e2
  · exact tile_eq_of_tval_eq p q hp hq 1 0 s1 s0 e3
  · exact tile_eq_of_tval_eq p q hp hq 1 1 s1 s1 e4
  · exact tile_eq_of_tval_eq p q hp hq 1 2 s1 s2 e5
  · exact tile_eq_of_tval_eq p q hp hq 2 0 s2 s0 e6
  · exact tile_eq_of_tval_eq p q hp hq 2 1 s2 s1 e7
  · exact tile_eq_of_tval_eq p q hp hq 2 2 s2 s2 e8

/-- The reachable state space: boards obtainable from the solved board by
the program's mutations. -/
def Reachable (p : Puzzle) : Prop := ∃ ops : List Op, applyOps Puzzle.new ops = p

theorem valid_of_reachable (p : Puzzle) (hp : Reachable p) : Valid p := by
  obtain ⟨ops, hops⟩ := hp
  rw [← hops]
  exact valid_applyOps ops Puzzle.new valid_new

/-- C6: `uniq` (the fingerprint) is injective over the reachable state
space for the fixed N: two reachable boards with the same fingerprint have
the same grid on every on-grid cell and the same blank position — in
particular, two reachable grids differing only in blank position (hence in
the grid cells holding the blank) have different fingerprints. -/
theorem claim_C6_fingerprint_injective (p q : Puzzle)
    (hp : Reachable p) (hq : Reachable q) (hu : p.uniq = q.uniq) :
    (∀ r < SIZE, ∀ c < SIZE, p.grid (r, c) = q.grid (r, c)) ∧ p.empty_pos = q.empty_pos := by
  have hpv := valid_of_reachable p hp
  have hqv := valid_of_reachable q hq
  have hgrid := uniq_inj_valid p q hpv hqv hu
  refine ⟨hgrid, ?_⟩
  obtain ⟨he1, he2, hEmpAt, -, -, -, -⟩ := hpv
  obtain ⟨-, -, -, hEmpUniqQ, -, -, -⟩ := hqv
  have hqe : q.grid (p.empty_pos.1, p.empty_pos.2) = Tile.Empty := by
    rw [← hgrid p.empty_pos.1 he1 p.empty_pos.2 he2]
    simpa using hEmpAt
  have := hEmpUniqQ p.empty_pos.1 he1 p.empty_pos.2 he2 hqe
  simpa using this

/-- C6 at a concrete input: the solved board against itself. -/
theorem claim_C6_witness :
    (∀ r < SIZE, ∀ c < SIZE, Puzzle.new.grid (r, c) = Puzzle.new.grid (r, c)) ∧
    Puzzle.new.empty_pos = Puzzle.new.empty_pos :=
  claim_C6_fingerprint_injective Puzzle.new Puzzle.new ⟨[], rfl⟩ ⟨[], rfl⟩ rfl

/-!  ## The solved root is never detected

The solved check in the expansion loop runs only for NEWLY discovered
fingerprints.  The root is pre-seeded into the visited table before the
loop, so when the root is already solved, the solved state's fingerprint is
never "new" and the search can never return success. -/

/-- A solved board satisfying the data-model contracts has the solved
board's fingerprint. -/
theorem is_solved_uniq (p : Puzzle) (hv : Valid p) (hc : costOk p)
    (hs : p.is_solved = true) : p.uniq = Puzzle.new.uniq := by
  have h0 : p.cost = 0 := by
    unfold Puzzle.is_solved at hs
    simpa using hs
  have h1 : p.compute_cost = 0 := by
    rw [← hc]
    exact h0
  exact uniq_in_range_congr p Puzzle.new ((compute_cost_eq_zero_iff p hv).1 h1)

/-- Inserting never removes a key from the visited table. -/
theorem vfind_vinsert_isSome (m : Visited) (k k' : Nat) (v : SolutionLink)
    (h : (vfind m k).isSome = true) : (vfind (vinsert m k' v) k).isSome = true := by
  unfold vfind at h
  unfold vfind vinsert
  rw [List.find?_cons]
  split
  · simp
  · exact h

theorem relaxSt_vfind_isSome (st : SearchState) (tgt next frm : Nat) (d : Direction) (k : Nat)
    (h : (vfind st.visited k).isSome = true) :
    (vfind (relaxSt st tgt next frm d).visited k).isSome = true := by
  unfold relaxSt
  split
  · exact vfind_vinsert_isSome st.visited k tgt _ h
  · exact h

theorem relaxSt_heap (st : SearchState) (tgt next frm : Nat) (d : Direction) :
    (relaxSt st tgt next frm d).heap = st.heap := by
  unfold relaxSt
  split <;> rfl

/-- Under the search invariant — the solved fingerprint is in the visited
table and every frontier board satisfies the board contracts — the
direction loop cannot return success, and when it continues the invariant
still holds. -/
theorem expandDirs_no_success :
    ∀ (ds : List Direction) (st : SearchState) (p : Puzzle) (frm next : Nat),
      (vfind st.visited Puzzle.new.uniq).isSome = true →
      (∀ q ∈ st.heap, Valid q ∧ costOk q) →
      Valid p → costOk p →
      (∀ st2 path, expandDirs frm next ds st p ≠ StepRes.success st2 path) ∧
      (∀ st2 p2, expandDirs frm next ds st p = StepRes.cont st2 p2 →
        (vfind st2.visited Puzzle.new.uniq).isSome = true ∧
        ∀ q ∈ st2.heap, Valid q ∧ costOk q) := by
  intro ds
  induction ds with
  | nil =>
      intro st p frm next h1 h2 hv hc
      refine ⟨fun st2 path h => StepRes.noConfusion h, ?_⟩
      intro st2 p2 h
      unfold expandDirs at h
      injection h with ha hb
      rw [← ha]
      exact ⟨h1, h2⟩
  | cons d ds ih =>
      intro st p frm next h1 h2 hv hc
      unfold expandDirs
      split
      case isFalse => exact ih st p frm next h1 h2 hv hc
      case isTrue hslid =>
        have hv1 : Valid (p.slide d).2 := valid_slide p d hv
        have hc1 : costOk (p.slide d).2 := costOk_slide p d hc
        split
        case isTrue hnew =>
          split
          case isTrue hsolved =>
            exfalso
            have huniq : (p.slide d).2.uniq = Puzzle.new.uniq :=
              is_solved_uniq _ hv1 hc1 hsolved
            have hnone : (vfind st.visited (p.slide d).2.uniq).isNone = true := hnew
            rw [huniq] at hnone
            rw [Option.isNone_iff_eq_none] at hnone
            rw [hnone] at h1
            exact Bool.false_ne_true h1
          case isFalse hnsolved =>
            split
            case isTrue hundo =>
              apply ih
              · exact relaxSt_vfind_isSome _ _ _ _ _ _ h1
              · intro q hq
                unfold pushSt nodeSt heapPush at hq
                dsimp only at hq
                rw [relaxSt_heap] at hq
                rcases List.mem_cons.1 hq with hq | hq
                · rw [hq]
                  exact ⟨hv1, hc1⟩
                · exact h2 q hq
              · exact valid_slide _ _ hv1
              · exact costOk_slide _ _ hc1
            case isFalse =>
              exact ⟨fun st2 path h => StepRes.noConfusion h,
                fun st2 p2 h => StepRes.noConfusion h⟩
        case isFalse hold =>
          split
          case isTrue hundo =>
            apply ih
            · exact relaxSt_vfind_isSome _ _ _ _ _ _ h1
            · intro q hq
              rw [relaxSt_heap] at hq
              exact h2 q hq
            · exact valid_slide _ _ hv1
            · exact costOk_slide _ _ hc1
          case isFalse =>
            exact ⟨fun st2 path h => StepRes.noConfusion h,
              fun st2 p2 h => StepRes.noConfusion h⟩

/-- Under the search invariant, the search loop never returns success, at
any fuel. -/
theorem solveLoop_no_success : ∀ (fuel : Nat) (st : SearchState),
    (vfind st.visited Puzzle.new.uniq).isSome = true →
    (∀ q ∈ st.heap, Valid q ∧ costOk q) →
    (solveLoop fuel st).isSuccess = false := by
  intro fuel
  induction fuel with
  | zero => intro st h1 h2; rfl
  | succ n ih =>
      intro st h1 h2
      unfold solveLoop
      rcases hpop : heapPop st.heap with _ | ⟨p, rest⟩
      · rfl
      · dsimp only
        have hmem := heapPop_mem st.heap p rest hpop
        have hp := h2 p hmem.1
        rcases hfind : vfind st.visited p.uniq with _ | link
        · rfl
        · dsimp only
          have hrest : ∀ q ∈ rest, Valid q ∧ costOk q := fun q hq => h2 q (hmem.2 q hq)
          have hexp := expandDirs_no_success ALL_DIRS
            { st with heap := rest, pops := st.pops ++ [p.uniq] } p p.uniq (link.depth + 1)
            h1 hrest hp.1 hp.2
          rcases hres : expandDirs p.uniq (link.depth + 1) ALL_DIRS
              { st with heap := rest, pops := st.pops ++ [p.uniq] } p
            with ⟨st2, p2⟩ | ⟨st2, path⟩ | _
          · obtain ⟨hv2, hh2⟩ := hexp.2 st2 p2 hres
            exact ih st2 hv2 hh2
          · exact absurd hres (hexp.1 st2 path)
          · rfl

/-- C1 (the code-bug record): the claim fails on the code.  With scramble
amount 0 the root passed to the search is the solved board; the search does
NOT detect this before expansion and does NOT return success with an empty
path and zero edges.  Instead: (1) the root is solved; (2) scrambling by 0
moves leaves the solved board; (3) for EVERY fuel the search returns no
success — the solved fingerprint is pre-seeded in the visited table, and
the solved check runs only for newly discovered fingerprints, so the run
can only end in frontier exhaustion (failure) after exploring the whole
space; (4) already the first pop expands the solved root and emits 2 trace
edges, not 0. -/
theorem claim_C1_solved_root_bug :
    Puzzle.new.is_solved = true ∧
    (∀ rand fuel, Puzzle.new.scramble 0 rand fuel = Puzzle.new) ∧
    (∀ fuel, (solveFrom fuel Puzzle.new).isSuccess = false) ∧
    countEdges (solveFrom 1 Puzzle.new).eventsOf = 2 := by
  refine ⟨by decide, ?_, ?_, by decide⟩
  · intro rand fuel
    cases fuel with
    | zero => rfl
    | succ n =>
        unfold Puzzle.scramble scrambleLoop
        rw [if_neg (by omega)]
  · intro fuel
    unfold solveFrom
    apply solveLoop_no_success
    · rfl
    · intro q hq
      have hq1 : q = Puzzle.new := List.mem_singleton.1 hq
      rw [hq1]
      exact ⟨valid_new, costOk_new⟩

/-!  ## Determinism -/

/-- `scramble` consumes the draw stream pointwise: streams that agree
pointwise scramble identically. -/
theorem scrambleLoop_congr (r1 r2 : Nat → Nat) (hr : ∀ i, r1 i = r2 i) (amount : Nat) :
    ∀ fuel idx previous moves p,
      scrambleLoop r1 amount fuel idx previous moves p
        = scrambleLoop r2 amount fuel idx previous moves p := by
  intro fuel
  induction fuel with
  | zero => intro idx previous moves p; rfl
  | succ n ih =>
      intro idx previous moves p
      unfold scrambleLoop
      rw [hr idx]
      split
      · split
        · split
          · exact ih _ _ _ _
          · exact ih _ _ _ _
        · exact ih _ _ _ _
      · rfl

/-- C9: the search is deterministic.  The program's only nondeterminism
source is the seeded RNG (`StdRng::seed_from_u64`, a pure function of the
seed, modelled as the draw stream): for a fixed scramble amount and a fixed
seed — i.e. pointwise-equal draw streams — two runs of `solve` produce the
same outcome, which carries the pop sequence (`pops`), the emitted trace
(`events`) and the success/failure result. -/
theorem claim_C9_deterministic (amount : Nat) (r1 r2 : Nat → Nat) (sfuel fuel : Nat)
    (hr : ∀ i, r1 i = r2 i) :
    solve amount r1 sfuel fuel = solve amount r2 sfuel fuel := by
  unfold solve solveFrom Puzzle.scramble
  rw [scrambleLoop_congr r1 r2 hr amount sfuel 0 none 0 Puzzle.new]

/-- C9 at a concrete input: two runs with the same amount and stream. -/
theorem claim_C9_witness :
    solve 3 (fun i => i) 10 10 = solve 3 (fun i => i) 10 10 :=
  claim_C9_deterministic 3 (fun i => i) (fun i => i) 10 10 (fun _ => rfl)

/-- The root of the C3 scenario: the solved board after one Left slide. -/
def rootLeft : Puzzle := (Puzzle.new.slide Direction.Left).2

/-- C3: from the solved board scrambled by a single Left slide, the search
terminates successfully (for every fuel of at least 5 pops, here 1 suffices)
and the reconstructed path is exactly one step whose direction is
`invert(Left) = Right`. -/
theorem claim_C3_one_left_slide :
    (solveFrom 5 rootLeft).isSuccess = true ∧
    (solveFrom 5 rootLeft).pathOf = some [(rootLeft.uniq, invert Direction.Left)] ∧
    ∀ k, solveFrom (5 + k) rootLeft = solveFrom 5 rootLeft := by
  refine ⟨by decide, by decide, ?_⟩
  intro k
  exact solveLoop_mono k 5 _ (by decide)

end SlidingTiles
